import Mathlib

/-!
Shallow embedding of the ZI-traders double-auction simulation (Go sources:
zi-traders.go and two earlier revisions of the same program).

The primary model follows the most recent revision (the one that partitions
the populations across worker threads, file `part_000`): agent initialization,
per-worker index-block computation, the randomized bid/ask/match protocol of
`doTrades`, and the statistics aggregation.  The namespace `ZiGo` models the
points where the revision in `zi-traders.go` (and `part_001`) differs: seller
valuations drawn from `maxBuyerValue`, and a statistics sample that is created
with one spurious zero element (`make(stat.IntSlice, 1)`).

Randomness is modelled by an explicit stream `g : Nat → Nat` of raw random
values; `rand.Intn n` becomes `intn n r = r % n` for `n > 0` and a fault
(`none`) for `n ≤ 0`, matching the Go panic on a non-positive argument.
-/

/-- One market participant (struct `agent` in the source).  `price` is the Go
zero-initialized `int` field; it stays `0` until a trade assigns a (positive)
transaction price. -/
structure Agent where
  buyerOrSeller : Bool
  quantityHeld : Nat
  value : Nat
  price : Nat
deriving DecidableEq, Repr

/-- The configuration globals of the program. -/
structure Config where
  numBuyers : Nat
  numSellers : Nat
  maxBuyerValue : Nat
  maxSellerValue : Nat
  numThreads : Nat
  maxNumberOfTrades : Nat
deriving DecidableEq, Repr

/-- The shared mutable population (globals `buyers` and `sellers`). -/
structure MarketState where
  buyers : List Agent
  sellers : List Agent
deriving DecidableEq, Repr

/-- Result of `computeStatistics`: the two counters and the collected sample
of transaction prices (the `sum` slice) over which mean and standard deviation
are computed. -/
structure Summary where
  numberBought : Nat
  numberSold : Nat
  sample : List Nat
deriving DecidableEq, Repr

/-- Model of `rand.Intn n` on a raw random value `r`: uniform in `[0, n)` for `n > 0`,
and a runtime fault (Go panic) for `n ≤ 0`, modelled as `none`. -/
def intn (n : Int) (r : Nat) : Option Nat :=
  if 0 < n then some (r % n.toNat) else none

/-- The global `buyersPerThread = numBuyers / numThreads` (integer division). -/
def buyersPerThread (c : Config) : Nat :=
  c.numBuyers / c.numThreads

/-- The global `sellersPerThread = numSellers / numThreads` (integer division). -/
def sellersPerThread (c : Config) : Nat :=
  c.numSellers / c.numThreads

/-- The global `tradesPerThread = maxNumberOfTrades / numThreads` (integer division). -/
def tradesPerThread (c : Config) : Nat :=
  c.maxNumberOfTrades / c.numThreads

/-- The buyer index block of worker `threadNum`, as the code computes it:
`[lowerBuyerBound, upperBuyerBound]` with `lowerBuyerBound = threadNum *
buyersPerThread` and `upperBuyerBound = (threadNum+1) * buyersPerThread - 1`
(both bounds inclusive). -/
def buyerRange (c : Config) (threadNum : Nat) : Finset Nat :=
  Finset.Icc (threadNum * buyersPerThread c) ((threadNum + 1) * buyersPerThread c - 1)

/-- The seller index block of worker `threadNum`. -/
def sellerRange (c : Config) (threadNum : Nat) : Finset Nat :=
  Finset.Icc (threadNum * sellersPerThread c) ((threadNum + 1) * sellersPerThread c - 1)

/-- The selection `buyerIndex := lowerBuyerBound +
generator.Intn(upperBuyerBound-lowerBuyerBound)` from `doTrades`, on a raw
random value `r`. -/
def buyerIndexDraw (c : Config) (threadNum r : Nat) : Option Nat :=
  (intn ((((threadNum : Int) + 1) * (buyersPerThread c : Int) - 1)
      - (threadNum : Int) * (buyersPerThread c : Int)) r).map
    (fun j => threadNum * buyersPerThread c + j)

/-- The selection `sellerIndex := lowerSellerBound +
generator.Intn(upperSellerBound-lowerSellerBound)` from `doTrades`, on a raw
random value `r`. -/
def sellerIndexDraw (c : Config) (threadNum r : Nat) : Option Nat :=
  (intn ((((threadNum : Int) + 1) * (sellersPerThread c : Int) - 1)
      - (threadNum : Int) * (sellersPerThread c : Int)) r).map
    (fun j => threadNum * sellersPerThread c + j)

/-- The bid/ask/match core shared by `makeTrade` (zi-traders.go) and the body
of `doTrades` (part_000): draw `bidPrice` in `[1, buyer.value]`, `askPrice` in
`[seller.value, maxSellerValue]`; if the buyer still wants a unit, the seller
still holds one and the bid covers the ask, draw the transaction price in
`[askPrice, bidPrice]`, record it on both agents and flip both holdings;
otherwise leave both agents unchanged.  Returns the two (possibly updated)
agents and the number of random values consumed (2 or 3). -/
def makeTrade (maxSellerValue : Nat) (buyer seller : Agent) (r2 r3 r4 : Nat) :
    Option (Agent × Agent × Nat) :=
  match intn (buyer.value : Int) r2 with
  | none => none
  | some b0 =>
    let bidPrice := b0 + 1
    match intn ((maxSellerValue : Int) - (seller.value : Int) + 1) r3 with
    | none => none
    | some a0 =>
      let askPrice := seller.value + a0
      if buyer.quantityHeld = 0 ∧ seller.quantityHeld = 1 ∧ askPrice ≤ bidPrice then
        match intn ((bidPrice : Int) - (askPrice : Int) + 1) r4 with
        | none => none
        | some p0 =>
          let transactionPrice := askPrice + p0
          some ({ buyer with price := transactionPrice, quantityHeld := 1 },
                { seller with price := transactionPrice, quantityHeld := 0 }, 3)
      else
        some (buyer, seller, 2)

/-- One iteration of the `doTrades` loop of worker `threadNum`: select a buyer
and a seller index inside the own blocks of the worker, then run the bid/ask/match
core on the selected agents, writing the results back.  `g` is the random stream of the worker and `pos` the position of its next unused value; any `rand.Intn`
fault or out-of-range slice access is `none`. -/
def doTradeAttempt (c : Config) (threadNum : Nat) (g : Nat → Nat) (pos : Nat)
    (st : MarketState) : Option (MarketState × Nat) :=
  match buyerIndexDraw c threadNum (g pos), sellerIndexDraw c threadNum (g (pos + 1)) with
  | some buyerIndex, some sellerIndex =>
    match st.buyers.get? buyerIndex, st.sellers.get? sellerIndex with
    | some buyer, some seller =>
      match makeTrade c.maxSellerValue buyer seller (g (pos + 2)) (g (pos + 3)) (g (pos + 4)) with
      | some (buyer2, seller2, used) =>
        some (⟨st.buyers.set buyerIndex buyer2, st.sellers.set sellerIndex seller2⟩,
              pos + 2 + used)
      | none => none
    | _, _ => none
  | _, _ => none

/-- Iterate `doTradeAttempt` a given number of times, also returning the
stream position and the number of attempts performed. -/
def doTradesAux (c : Config) (threadNum : Nat) (g : Nat → Nat) :
    Nat → Nat → MarketState → Option (MarketState × Nat × Nat)
  | 0, pos, st => some (st, pos, 0)
  | fuel + 1, pos, st =>
    match doTradeAttempt c threadNum g pos st with
    | none => none
    | some (st2, pos2) =>
      match doTradesAux c threadNum g fuel pos2 st2 with
      | none => none
      | some (stF, posF, n) => some (stF, posF, n + 1)

/-- The `doTrades` loop of worker `threadNum`: the loop `for i := 1; i < tradesPerThread;
i++`, i.e. `tradesPerThread - 1` iterations of the attempt body. -/
def doTrades (c : Config) (threadNum : Nat) (g : Nat → Nat) (st : MarketState) :
    Option (MarketState × Nat × Nat) :=
  doTradesAux c threadNum g (tradesPerThread c - 1) 0 st

/-- The agent-creation loop of `initializeAgents`: `n` agents with indices of
the random stream starting at `i`, each with `value = rand.Intn(maxV) + 1`,
the given role and initial holding, and zero-initialized `price`. -/
def initAgentsFrom (maxV : Int) (g : Nat → Nat) (isBuyer : Bool) (held : Nat) :
    Nat → Nat → Option (List Agent)
  | _, 0 => some []
  | i, n + 1 =>
    match intn maxV (g i) with
    | none => none
    | some v =>
      match initAgentsFrom maxV g isBuyer held (i + 1) n with
      | none => none
      | some rest => some (⟨isBuyer, held, v + 1, 0⟩ :: rest)

/-- Function `initializeAgents` (part_000): buyers hold 0 and draw their value uniformly
in `[1, maxBuyerValue]`; sellers hold 1 and draw uniformly in
`[1, maxSellerValue]`.  The buyers consume the first `numBuyers` stream values,
the sellers the following `numSellers`. -/
def initializeAgents (c : Config) (g : Nat → Nat) : Option (List Agent × List Agent) :=
  match initAgentsFrom (c.maxBuyerValue : Int) g true 0 0 c.numBuyers with
  | none => none
  | some b =>
    match initAgentsFrom (c.maxSellerValue : Int) g false 1 c.numBuyers c.numSellers with
    | none => none
    | some s => some (b, s)

/-- Function `computeStatistics` (part_000): count buyers with `quantityHeld == 1` and
sellers with `quantityHeld == 0`, and collect their `price` fields (buyers
first, then sellers) into the sample slice, which starts empty
(`make(stat.IntSlice, 0)`). -/
def computeStatistics (buyers sellers : List Agent) : Summary :=
  { numberBought := (buyers.filter (fun a => a.quantityHeld == 1)).length
    numberSold := (sellers.filter (fun a => a.quantityHeld == 0)).length
    sample := (buyers.filter (fun a => a.quantityHeld == 1)).map Agent.price
      ++ (sellers.filter (fun a => a.quantityHeld == 0)).map Agent.price }

namespace ZiGo

/-- Function `initializeAgents` as written in `zi-traders.go` (and `part_001`): the
seller loop draws `(rand.Int() % maxBuyerValue) + 1`, i.e. it uses
`maxBuyerValue` where the buyer range ends, instead of `maxSellerValue`. -/
def initializeAgents (c : Config) (g : Nat → Nat) : Option (List Agent × List Agent) :=
  match initAgentsFrom (c.maxBuyerValue : Int) g true 0 0 c.numBuyers with
  | none => none
  | some b =>
    match initAgentsFrom (c.maxBuyerValue : Int) g false 1 c.numBuyers c.numSellers with
    | none => none
    | some s => some (b, s)

/-- Function `computeStatistics` as written in `zi-traders.go` (and `part_001`): the
sample slice is created as `make(stat.IntSlice, 1)`, i.e. it starts with one
zero element before the prices are appended. -/
def computeStatistics (buyers sellers : List Agent) : Summary :=
  { numberBought := (buyers.filter (fun a => a.quantityHeld == 1)).length
    numberSold := (sellers.filter (fun a => a.quantityHeld == 0)).length
    sample := 0 :: ((buyers.filter (fun a => a.quantityHeld == 1)).map Agent.price
      ++ (sellers.filter (fun a => a.quantityHeld == 0)).map Agent.price) }

end ZiGo

/-- A single-worker run: initialize the populations from the stream `gInit`
(the globally seeded `rand`), run `doTrades` of worker 0 with the stream
`gTrade` (the own generator of the worker, seeded in the code from
`time.Now().UnixNano()`), then aggregate. -/
def runSimulation (c : Config) (gInit gTrade : Nat → Nat) : Option Summary :=
  match initializeAgents c gInit with
  | none => none
  | some (b, s) =>
    match doTrades c 0 gTrade ⟨b, s⟩ with
    | none => none
    | some (stF, _, _) => some (computeStatistics stF.buyers stF.sellers)

/-- The states a run can pass through: the freshly initialized population,
and everything obtained from it by trade attempts of any worker at any stream
position (this covers every interleaving of the attempt-atomic
worker steps). -/
inductive Reachable (c : Config) : MarketState → Prop where
  | init : ∀ (g : Nat → Nat) (b s : List Agent),
      initializeAgents c g = some (b, s) → Reachable c ⟨b, s⟩
  | step : ∀ (st : MarketState) (threadNum : Nat) (g : Nat → Nat) (pos : Nat)
      (st2 : MarketState) (pos2 : Nat),
      Reachable c st → doTradeAttempt c threadNum g pos st = some (st2, pos2) →
      Reachable c st2

/-- The per-agent and cross-population invariant maintained by every run:
buyers are buyers holding at most one unit with positive valuation and a
recorded price exactly when they have bought; sellers dually; and the number
of buyers that have bought equals the number of sellers that have sold. -/
def MarketInv (st : MarketState) : Prop :=
  (∀ a ∈ st.buyers, a.buyerOrSeller = true ∧ a.quantityHeld ≤ 1 ∧ 1 ≤ a.value ∧
    (a.price ≠ 0 ↔ a.quantityHeld = 1)) ∧
  (∀ a ∈ st.sellers, a.buyerOrSeller = false ∧ a.quantityHeld ≤ 1 ∧ 1 ≤ a.value ∧
    (a.price ≠ 0 ↔ a.quantityHeld = 0)) ∧
  st.buyers.countP (fun a => a.quantityHeld == 1) = st.sellers.countP (fun a => a.quantityHeld == 0)

def cfgPartition : Config := ⟨5, 5, 30, 30, 2, 0⟩

/-- Claim C1: the per-worker index blocks are supposed to cover [0, N) exactly,
with the first N mod P blocks one element larger.  The code instead computes
equal blocks of size N / P: at N = 5, P = 2 the union of the blocks is
{0, 1, 2, 3}, index 4 is dropped, and both blocks have the same size even
though N mod P = 1. -/
theorem partition_drops_indices :
    (Finset.range cfgPartition.numThreads).biUnion (fun t => buyerRange cfgPartition t)
        ≠ Finset.range cfgPartition.numBuyers ∧
    4 ∉ (Finset.range cfgPartition.numThreads).biUnion (fun t => buyerRange cfgPartition t) ∧
    4 < cfgPartition.numBuyers ∧
    (buyerRange cfgPartition 0).card = (buyerRange cfgPartition 1).card ∧
    cfgPartition.numBuyers % cfgPartition.numThreads = 1 := by
  decide

def cfgBlocks : Config := ⟨4, 4, 30, 30, 2, 0⟩

/-- Claim C2, counterexample: with 4 buyers and 2 workers, the buyer
block of worker 0 is {0, 1}, but `lower + Intn(upper - lower)` draws over a width of
`upper - lower = 1`, so index 0 is selected for every random value and the
last block index 1 is never selected: the draw is not uniform over the
own range of the worker. -/
theorem buyer_selection_misses_last_index :
    buyerRange cfgBlocks 0 = ({0, 1} : Finset Nat) ∧
    ∀ r : Nat, buyerIndexDraw cfgBlocks 0 r = some 0 := by
  refine ⟨by decide, fun r => ?_⟩
  simp [buyerIndexDraw, intn, buyersPerThread, cfgBlocks, Nat.mod_one]

def cfgOneWorker : Config := ⟨4, 4, 2, 2, 1, 3⟩
def buyersInit4 : List Agent := List.replicate 4 ⟨true, 0, 1, 0⟩
def sellersInit4 : List Agent := List.replicate 4 ⟨false, 1, 1, 0⟩

/-- Claim C8: the `doTrades` loop runs `for i := 1; i < tradesPerThread; i++`,
so a worker performs `tradesPerThread - 1` attempts.  With one worker and a
total budget of 3, the run performs 2 attempts, not the configured 3. -/
theorem worker_attempts_off_by_one :
    initializeAgents cfgOneWorker (fun _ => 0) = some (buyersInit4, sellersInit4) ∧
    Option.map (fun r => r.2.2)
        (doTrades cfgOneWorker 0 (fun _ => 0) ⟨buyersInit4, sellersInit4⟩) = some 2 ∧
    tradesPerThread cfgOneWorker = cfgOneWorker.maxNumberOfTrades ∧
    cfgOneWorker.maxNumberOfTrades = 3 ∧ (2 : Nat) ≠ 3 := by
  decide

def cfgMismatch : Config := ⟨1, 1, 30, 10, 1, 0⟩

/-- Claim C7: in `zi-traders.go` (and `part_001`) the seller loop draws
`(rand.Int() % maxBuyerValue) + 1`.  With maxBuyerValue = 30, maxSellerValue
= 10 and raw value 24 the seller gets reservation value 25, outside the
claimed range [1, maxSellerValue] = [1, 10]; the `part_000` revision of
`initializeAgents` gives 5 as claimed. -/
theorem seller_values_drawn_from_buyer_range :
    ZiGo.initializeAgents cfgMismatch (fun _ => 24)
        = some ([⟨true, 0, 25, 0⟩], [⟨false, 1, 25, 0⟩]) ∧
    ¬ ((25 : Nat) ≤ cfgMismatch.maxSellerValue) ∧
    initializeAgents cfgMismatch (fun _ => 24)
        = some ([⟨true, 0, 25, 0⟩], [⟨false, 1, 5, 0⟩]) := by
  decide

/-- Claim C6: in `zi-traders.go` (and `part_001`) the sample slice is created
as `make(stat.IntSlice, 1)`, so the sample contains a spurious 0 in addition
to the transaction prices: 3 entries instead of 2 * numBought = 2 for one
executed trade.  The `part_000` revision collects exactly the prices of the
transacted buyers and sellers. -/
theorem aggregator_sample_spurious_zero :
    ZiGo.computeStatistics [⟨true, 1, 2, 5⟩] [⟨false, 0, 2, 5⟩] = ⟨1, 1, [0, 5, 5]⟩ ∧
    computeStatistics [⟨true, 1, 2, 5⟩] [⟨false, 0, 2, 5⟩] = ⟨1, 1, [5, 5]⟩ ∧
    (ZiGo.computeStatistics [⟨true, 1, 2, 5⟩] [⟨false, 0, 2, 5⟩]).sample.length
      ≠ 2 * (ZiGo.computeStatistics [⟨true, 1, 2, 5⟩] [⟨false, 0, 2, 5⟩]).numberBought := by
  decide

def cfgSeedDemo : Config := ⟨2, 2, 2, 2, 1, 2⟩

/-- Claim C9: the worker generator is seeded from `time.Now().UnixNano()`,
not from the configured seed, so the summary depends on the time-derived
stream: with identical configuration and identical initialization stream, two
different worker streams (two different start times) give different
summaries. -/
theorem summary_depends_on_time_seeded_stream :
    runSimulation cfgSeedDemo (fun _ => 1) (fun _ => 0)
      ≠ runSimulation cfgSeedDemo (fun _ => 1) (fun _ => 1) := by
  decide

def cfgFullParallel : Config := ⟨2, 2, 30, 30, 2, 0⟩
def stFullParallel : MarketState :=
  ⟨[⟨true, 0, 3, 0⟩, ⟨true, 0, 3, 0⟩], [⟨false, 1, 3, 0⟩, ⟨false, 1, 3, 0⟩]⟩

/-- Claim C10, counterexample: with numBuyers = numSellers = numThreads = 2
(so P <= min(numBuyers, numSellers)) and well-formed agent values, the
buyer-index draw of worker 0 has width `upperBound - lowerBound = N/P - 1 = 0`, so
`rand.Intn` is called with argument 0 and the attempt faults. -/
theorem draw_width_zero_at_full_parallelism :
    (1 ≤ cfgFullParallel.numThreads ∧
      cfgFullParallel.numThreads ≤ min cfgFullParallel.numBuyers cfgFullParallel.numSellers) ∧
    (∀ a ∈ stFullParallel.sellers, 1 ≤ a.value ∧ a.value ≤ cfgFullParallel.maxSellerValue) ∧
    (∀ a ∈ stFullParallel.buyers, 1 ≤ a.value) ∧
    doTradeAttempt cfgFullParallel 0 (fun _ => 0) 0 stFullParallel = none := by
  decide

theorem buyerIndexDraw_eq (c : Config) (t r : Nat) (hb : 2 ≤ buyersPerThread c) :
    buyerIndexDraw c t r = some (t * buyersPerThread c + r % (buyersPerThread c - 1)) := by
  unfold buyerIndexDraw intn
  have hw : (((t : Int) + 1) * (buyersPerThread c : Int) - 1)
      - (t : Int) * (buyersPerThread c : Int) = (buyersPerThread c : Int) - 1 := by ring
  rw [hw]
  have h0 : (0 : Int) < (buyersPerThread c : Int) - 1 := by omega
  rw [if_pos h0]
  have ht : ((buyersPerThread c : Int) - 1).toNat = buyersPerThread c - 1 := by omega
  rw [ht]
  rfl

theorem sellerIndexDraw_eq (c : Config) (t r : Nat) (hs : 2 ≤ sellersPerThread c) :
    sellerIndexDraw c t r = some (t * sellersPerThread c + r % (sellersPerThread c - 1)) := by
  unfold sellerIndexDraw intn
  have hw : (((t : Int) + 1) * (sellersPerThread c : Int) - 1)
      - (t : Int) * (sellersPerThread c : Int) = (sellersPerThread c : Int) - 1 := by ring
  rw [hw]
  have h0 : (0 : Int) < (sellersPerThread c : Int) - 1 := by omega
  rw [if_pos h0]
  have ht : ((sellersPerThread c : Int) - 1).toNat = sellersPerThread c - 1 := by omega
  rw [ht]
  rfl

theorem block_avoid (w t u k : Nat) (hw : 2 ≤ w) (hk : t * w ≤ k ∧ k ≤ (t + 1) * w - 2)
    (hu : u ≠ t) : ¬ (u * w ≤ k ∧ k ≤ (u + 1) * w - 1) := by
  rintro ⟨h1, h2⟩
  rcases Nat.lt_or_ge u t with h | h
  · have hm : (u + 1) * w ≤ t * w := Nat.mul_le_mul_right w h
    have e1 : (u + 1) * w = u * w + w := by ring
    omega
  · have h3 : t < u := lt_of_le_of_ne h (Ne.symm hu)
    have hm : (t + 1) * w ≤ u * w := Nat.mul_le_mul_right w h3
    have e1 : (t + 1) * w = t * w + w := by ring
    omega

/-- Claim C2 (amended): the buyer/seller index draws of a worker always land
inside the own block of that worker and never in the block of any other
worker, and they are uniform over the block *minus its last index*: every
index below the last is hit (once per residue class of the raw value, which
repeats with period `width`), while the last block index is never selected. -/
theorem selection_within_own_block (c : Config) (t r : Nat)
    (hb : 2 ≤ buyersPerThread c) (hs : 2 ≤ sellersPerThread c) :
    (∀ k, buyerIndexDraw c t r = some k →
      k ∈ buyerRange c t ∧ k ≠ (t + 1) * buyersPerThread c - 1 ∧
      ∀ u, u ≠ t → k ∉ buyerRange c u) ∧
    (∀ k, sellerIndexDraw c t r = some k →
      k ∈ sellerRange c t ∧ k ≠ (t + 1) * sellersPerThread c - 1 ∧
      ∀ u, u ≠ t → k ∉ sellerRange c u) ∧
    (∀ j, j < buyersPerThread c - 1 →
      buyerIndexDraw c t j = some (t * buyersPerThread c + j)) ∧
    (∀ j, j < sellersPerThread c - 1 →
      sellerIndexDraw c t j = some (t * sellersPerThread c + j)) ∧
    buyerIndexDraw c t r = buyerIndexDraw c t (r % (buyersPerThread c - 1)) ∧
    sellerIndexDraw c t r = sellerIndexDraw c t (r % (sellersPerThread c - 1)) := by
  have hbm : r % (buyersPerThread c - 1) < buyersPerThread c - 1 :=
    Nat.mod_lt r (by omega)
  have hsm : r % (sellersPerThread c - 1) < sellersPerThread c - 1 :=
    Nat.mod_lt r (by omega)
  refine ⟨?_, ?_, ?_, ?_, ?_, ?_⟩
  · intro k hk
    rw [buyerIndexDraw_eq c t r hb] at hk
    have hk2 : k = t * buyersPerThread c + r % (buyersPerThread c - 1) :=
      (Option.some_inj.mp hk).symm
    have he : (t + 1) * buyersPerThread c = t * buyersPerThread c + buyersPerThread c := by
      ring
    refine ⟨?_, by omega, ?_⟩
    · rw [buyerRange, Finset.mem_Icc]; omega
    · intro u hu hmem
      rw [buyerRange, Finset.mem_Icc] at hmem
      exact block_avoid (buyersPerThread c) t u k hb (by omega) hu hmem
  · intro k hk
    rw [sellerIndexDraw_eq c t r hs] at hk
    have hk2 : k = t * sellersPerThread c + r % (sellersPerThread c - 1) :=
      (Option.some_inj.mp hk).symm
    have he : (t + 1) * sellersPerThread c = t * sellersPerThread c + sellersPerThread c := by
      ring
    refine ⟨?_, by omega, ?_⟩
    · rw [sellerRange, Finset.mem_Icc]; omega
    · intro u hu hmem
      rw [sellerRange, Finset.mem_Icc] at hmem
      exact block_avoid (sellersPerThread c) t u k hs (by omega) hu hmem
  · intro j hj
    rw [buyerIndexDraw_eq c t j hb, Nat.mod_eq_of_lt hj]
  · intro j hj
    rw [sellerIndexDraw_eq c t j hs, Nat.mod_eq_of_lt hj]
  · rw [buyerIndexDraw_eq c t r hb, buyerIndexDraw_eq c t _ hb,
      Nat.mod_mod_of_dvd r dvd_rfl]
  · rw [sellerIndexDraw_eq c t r hs, sellerIndexDraw_eq c t _ hs,
      Nat.mod_mod_of_dvd r dvd_rfl]

theorem selection_within_own_block_witness :
    buyerIndexDraw cfgOneWorker 0 2 = some (0 * buyersPerThread cfgOneWorker + 2) :=
  (selection_within_own_block cfgOneWorker 0 2 (by decide) (by decide)).2.2.1 2 (by decide)

theorem intn_natCast (n r : Nat) (h : 0 < n) : intn (n : Int) r = some (r % n) := by
  unfold intn
  rw [if_pos (by exact_mod_cast h)]
  norm_num

theorem intn_width (a b r : Nat) (h : a ≤ b) :
    intn ((b : Int) - (a : Int) + 1) r = some (r % (b - a + 1)) := by
  unfold intn
  rw [if_pos (by omega)]
  have ht : ((b : Int) - (a : Int) + 1).toNat = b - a + 1 := by omega
  rw [ht]

/-- Claim C3: a trade executes exactly when the buyer still wants a unit, the
seller still holds one, and the bid (uniform in [1, buyer.value]) meets or
exceeds the ask (uniform in [seller.value, maxSellerValue]).  On execution the
transaction price `ask + r % (bid - ask + 1)` lies in [ask, bid], every value
of that interval is attainable, the price is recorded on both agents and both
holdings flip; otherwise the attempt returns both agents unchanged. -/
theorem makeTrade_spec (msv : Nat) (buyer seller : Agent) (r2 r3 r4 : Nat)
    (hbv : 0 < buyer.value) (hsv : seller.value ≤ msv) :
    (buyer.quantityHeld = 0 ∧ seller.quantityHeld = 1 ∧
        seller.value + r3 % (msv - seller.value + 1) ≤ r2 % buyer.value + 1 →
      makeTrade msv buyer seller r2 r3 r4 =
        some ({ buyer with
                  price := seller.value + r3 % (msv - seller.value + 1)
                    + r4 % (r2 % buyer.value + 1
                        - (seller.value + r3 % (msv - seller.value + 1)) + 1),
                  quantityHeld := 1 },
              { seller with
                  price := seller.value + r3 % (msv - seller.value + 1)
                    + r4 % (r2 % buyer.value + 1
                        - (seller.value + r3 % (msv - seller.value + 1)) + 1),
                  quantityHeld := 0 }, 3) ∧
      seller.value + r3 % (msv - seller.value + 1)
          ≤ seller.value + r3 % (msv - seller.value + 1)
            + r4 % (r2 % buyer.value + 1
                - (seller.value + r3 % (msv - seller.value + 1)) + 1) ∧
      seller.value + r3 % (msv - seller.value + 1)
          + r4 % (r2 % buyer.value + 1
              - (seller.value + r3 % (msv - seller.value + 1)) + 1)
        ≤ r2 % buyer.value + 1 ∧
      (∀ p, seller.value + r3 % (msv - seller.value + 1) ≤ p →
        p ≤ r2 % buyer.value + 1 →
        ∃ r, seller.value + r3 % (msv - seller.value + 1)
          + r % (r2 % buyer.value + 1
              - (seller.value + r3 % (msv - seller.value + 1)) + 1) = p)) ∧
    (¬ (buyer.quantityHeld = 0 ∧ seller.quantityHeld = 1 ∧
        seller.value + r3 % (msv - seller.value + 1) ≤ r2 % buyer.value + 1) →
      makeTrade msv buyer seller r2 r3 r4 = some (buyer, seller, 2)) := by
  have hbid : intn (buyer.value : Int) r2 = some (r2 % buyer.value) :=
    intn_natCast _ _ hbv
  have hask : intn ((msv : Int) - (seller.value : Int) + 1) r3
      = some (r3 % (msv - seller.value + 1)) := intn_width _ _ _ hsv
  constructor
  · rintro ⟨h1, h2, h3⟩
    have htp : intn ((r2 % buyer.value + 1 : Nat) - ((seller.value : Nat)
        + r3 % (msv - seller.value + 1) : Nat) + 1) r4
        = some (r4 % (r2 % buyer.value + 1
            - (seller.value + r3 % (msv - seller.value + 1)) + 1)) := by
      exact intn_width (seller.value + r3 % (msv - seller.value + 1))
        (r2 % buyer.value + 1) r4 h3
    have hmod : r4 % (r2 % buyer.value + 1
        - (seller.value + r3 % (msv - seller.value + 1)) + 1)
        < r2 % buyer.value + 1 - (seller.value + r3 % (msv - seller.value + 1)) + 1 :=
      Nat.mod_lt _ (by omega)
    refine ⟨?_, by omega, by omega, ?_⟩
    · unfold makeTrade
      rw [hbid]
      simp only []
      rw [hask]
      simp only []
      rw [if_pos ⟨h1, h2, h3⟩]
      rw [htp]
    · intro p hp1 hp2
      refine ⟨p - (seller.value + r3 % (msv - seller.value + 1)), ?_⟩
      have hlt : p - (seller.value + r3 % (msv - seller.value + 1))
          < r2 % buyer.value + 1 - (seller.value + r3 % (msv - seller.value + 1)) + 1 := by
        omega
      rw [Nat.mod_eq_of_lt hlt]
      omega
  · intro hneg
    unfold makeTrade
    rw [hbid]
    simp only []
    rw [hask]
    simp only []
    rw [if_neg hneg]

theorem makeTrade_spec_witness :
    makeTrade 10 ⟨true, 0, 5, 0⟩ ⟨false, 1, 3, 0⟩ 4 2 1
      = some (⟨true, 1, 5, 5⟩, ⟨false, 0, 3, 5⟩, 3) := by
  have h := (makeTrade_spec 10 ⟨true, 0, 5, 0⟩ ⟨false, 1, 3, 0⟩ 4 2 1
    (by decide) (by decide)).1 (by decide)
  exact h.1

theorem makeTrade_eq (msv : Nat) (b s : Agent) (r2 r3 r4 : Nat)
    (h1 : 0 < b.value) (h2 : s.value ≤ msv) :
    makeTrade msv b s r2 r3 r4 =
      if b.quantityHeld = 0 ∧ s.quantityHeld = 1 ∧
          s.value + r3 % (msv - s.value + 1) ≤ r2 % b.value + 1 then
        some ({ b with
                price := (s.value + r3 % (msv - s.value + 1)
                  + r4 % (r2 % b.value + 1 - (s.value + r3 % (msv - s.value + 1)) + 1)),
                quantityHeld := 1 },
              { s with
                price := (s.value + r3 % (msv - s.value + 1)
                  + r4 % (r2 % b.value + 1 - (s.value + r3 % (msv - s.value + 1)) + 1)),
                quantityHeld := 0 }, 3)
      else some (b, s, 2) := by
  have hbid := intn_natCast b.value r2 h1
  have hask := intn_width s.value msv r3 h2
  unfold makeTrade
  rw [hbid]
  simp only []
  rw [hask]
  simp only []
  by_cases hc : (b.quantityHeld = 0 ∧ s.quantityHeld = 1 ∧
      s.value + r3 % (msv - s.value + 1) ≤ r2 % b.value + 1)
  · rw [if_pos hc, if_pos hc, intn_width _ _ r4 hc.2.2]
  · rw [if_neg hc, if_neg hc]

theorem makeTrade_isSome (msv : Nat) (b s : Agent) (r2 r3 r4 : Nat)
    (h1 : 0 < b.value) (h2 : s.value ≤ msv) :
    (makeTrade msv b s r2 r3 r4).isSome = true := by
  rw [makeTrade_eq msv b s r2 r3 r4 h1 h2]
  split <;> rfl

theorem makeTrade_cases (msv : Nat) (b s b2 s2 : Agent) (r2 r3 r4 u : Nat)
    (h : makeTrade msv b s r2 r3 r4 = some (b2, s2, u)) :
    (b2 = b ∧ s2 = s ∧ u = 2) ∨
    (b.quantityHeld = 0 ∧ s.quantityHeld = 1 ∧
      ∃ tp, s.value ≤ tp ∧
        b2 = { b with price := tp, quantityHeld := 1 } ∧
        s2 = { s with price := tp, quantityHeld := 0 } ∧ u = 3) := by
  unfold makeTrade at h
  split at h
  · exact Option.noConfusion h
  · rename_i b0 hb0
    split at h
    · exact Option.noConfusion h
    · rename_i a0 ha0
      simp only [] at h
      split at h
      · rename_i hcond
        split at h
        · exact Option.noConfusion h
        · rename_i p0 hp0
          simp only [Option.some.injEq, Prod.mk.injEq] at h
          obtain ⟨hb2, hs2, hu⟩ := h
          right
          exact ⟨hcond.1, hcond.2.1, s.value + a0 + p0, by omega, hb2.symm, hs2.symm, hu.symm⟩
      · rename_i hcond
        simp only [Option.some.injEq, Prod.mk.injEq] at h
        obtain ⟨hb2, hs2, hu⟩ := h
        left
        exact ⟨hb2.symm, hs2.symm, hu.symm⟩

theorem doTradeAttempt_cases (c : Config) (threadNum : Nat) (g : Nat → Nat) (pos : Nat)
    (st st2 : MarketState) (pos2 : Nat)
    (h : doTradeAttempt c threadNum g pos st = some (st2, pos2)) :
    ∃ bi si buyer seller b2 s2 used,
      buyerIndexDraw c threadNum (g pos) = some bi ∧
      sellerIndexDraw c threadNum (g (pos + 1)) = some si ∧
      st.buyers.get? bi = some buyer ∧
      st.sellers.get? si = some seller ∧
      makeTrade c.maxSellerValue buyer seller (g (pos + 2)) (g (pos + 3)) (g (pos + 4))
        = some (b2, s2, used) ∧
      st2 = ⟨st.buyers.set bi b2, st.sellers.set si s2⟩ ∧
      pos2 = pos + 2 + used := by
  unfold doTradeAttempt at h
  split at h
  · rename_i bi si hbi hsi
    split at h
    · rename_i buyer seller hbuyer hseller
      split at h
      · rename_i b2 s2 used hmt
        simp only [Option.some.injEq, Prod.mk.injEq] at h
        obtain ⟨hst, hpos⟩ := h
        exact ⟨bi, si, buyer, seller, b2, s2, used, hbi, hsi, hbuyer, hseller, hmt,
          hst.symm, hpos.symm⟩
      · exact Option.noConfusion h
    · exact Option.noConfusion h
  · exact Option.noConfusion h

theorem countP_set_balance {α : Type} (p : α → Bool) (l : List α) (i : Nat) (x y : α)
    (hx : l.get? i = some x) :
    (l.set i y).countP p + (if p x then 1 else 0)
      = l.countP p + (if p y then 1 else 0) := by
  induction l generalizing i with
  | nil => exact Option.noConfusion hx
  | cons a as ih =>
    cases i with
    | zero =>
      have hax : a = x := Option.some_inj.mp hx
      subst hax
      simp only [List.set, List.countP_cons]
      omega
    | succ n =>
      have hx2 : as.get? n = some x := hx
      simp only [List.set, List.countP_cons]
      have := ih n hx2
      omega

theorem initAgentsFrom_mem (maxV : Int) (g : Nat → Nat) (isBuyer : Bool) (held : Nat) :
    ∀ (n i : Nat) (l : List Agent), initAgentsFrom maxV g isBuyer held i n = some l →
      ∀ a ∈ l, a.buyerOrSeller = isBuyer ∧ a.quantityHeld = held ∧ 1 ≤ a.value ∧
        a.price = 0 := by
  intro n
  induction n with
  | zero =>
    intro i l h a ha
    have : ([] : List Agent) = l := Option.some_inj.mp h
    subst this
    exact absurd ha (List.not_mem_nil a)
  | succ n ih =>
    intro i l h a ha
    unfold initAgentsFrom at h
    split at h
    · exact Option.noConfusion h
    · rename_i v hv
      split at h
      · exact Option.noConfusion h
      · rename_i rest hrest
        have hl : (⟨isBuyer, held, v + 1, 0⟩ : Agent) :: rest = l := Option.some_inj.mp h
        subst hl
        rcases List.mem_cons.mp ha with h1 | h1
        · subst h1
          exact ⟨rfl, rfl, Nat.le_add_left 1 v, rfl⟩
        · exact ih (i + 1) rest hrest a h1

theorem marketInv_step (c : Config) (st st2 : MarketState) (threadNum : Nat)
    (g : Nat → Nat) (pos pos2 : Nat)
    (hstep : doTradeAttempt c threadNum g pos st = some (st2, pos2))
    (hinv : MarketInv st) : MarketInv st2 := by
  obtain ⟨bi, si, buyer, seller, b2, s2, used, hbi, hsi, hbuyer, hseller, hmt, hst2, hpos2⟩ :=
    doTradeAttempt_cases c threadNum g pos st st2 pos2 hstep
  obtain ⟨hinvB, hinvS, hcnt⟩ := hinv
  have hbuyerMem : buyer ∈ st.buyers := List.get?_mem hbuyer
  have hsellerMem : seller ∈ st.sellers := List.get?_mem hseller
  have hbuyerInv := hinvB buyer hbuyerMem
  have hsellerInv := hinvS seller hsellerMem
  have e1 := countP_set_balance (fun a => a.quantityHeld == 1) st.buyers bi buyer b2 hbuyer
  have e2 := countP_set_balance (fun a => a.quantityHeld == 0) st.sellers si seller s2 hseller
  subst hst2
  rcases makeTrade_cases _ _ _ _ _ _ _ _ _ hmt with
    ⟨hb2, hs2, _⟩ | ⟨hheldB, hheldS, tp, htp, hb2, hs2, _⟩
  · refine ⟨?_, ?_, ?_⟩
    · intro a ha
      rcases List.mem_or_eq_of_mem_set ha with h1 | h1
      · exact hinvB a h1
      · subst h1
        rw [hb2]
        exact hbuyerInv
    · intro a ha
      rcases List.mem_or_eq_of_mem_set ha with h1 | h1
      · exact hinvS a h1
      · subst h1
        rw [hs2]
        exact hsellerInv
    · show List.countP (fun a => a.quantityHeld == 1) (st.buyers.set bi b2)
          = List.countP (fun a => a.quantityHeld == 0) (st.sellers.set si s2)
      rw [hb2, hs2]
      rw [hb2] at e1
      rw [hs2] at e2
      omega
  · have htp1 : 1 ≤ tp := by
      have := hsellerInv.2.2.1
      omega
    refine ⟨?_, ?_, ?_⟩
    · intro a ha
      rcases List.mem_or_eq_of_mem_set ha with h1 | h1
      · exact hinvB a h1
      · subst h1
        rw [hb2]
        exact ⟨hbuyerInv.1, by simp, hbuyerInv.2.2.1, by simp; omega⟩
    · intro a ha
      rcases List.mem_or_eq_of_mem_set ha with h1 | h1
      · exact hinvS a h1
      · subst h1
        rw [hs2]
        exact ⟨hsellerInv.1, by simp, hsellerInv.2.2.1, by simp; omega⟩
    · have pb : (buyer.quantityHeld == 1) = false := by
        simp [hheldB]
      have ps : (seller.quantityHeld == 0) = false := by
        simp [hheldS]
      have pb2 : (b2.quantityHeld == 1) = true := by
        rw [hb2]
        simp
      have ps2 : (s2.quantityHeld == 0) = true := by
        rw [hs2]
        simp
      simp only [pb, ps, pb2, ps2, Bool.false_eq_true, if_false, if_true] at e1 e2
      show List.countP (fun a => a.quantityHeld == 1) (st.buyers.set bi b2)
          = List.countP (fun a => a.quantityHeld == 0) (st.sellers.set si s2)
      omega

theorem marketInv_init (c : Config) (g : Nat → Nat) (b s : List Agent)
    (h : initializeAgents c g = some (b, s)) : MarketInv ⟨b, s⟩ := by
  unfold initializeAgents at h
  split at h
  · exact Option.noConfusion h
  · rename_i lb hlb
    split at h
    · exact Option.noConfusion h
    · rename_i ls hls
      simp only [Option.some.injEq, Prod.mk.injEq] at h
      obtain ⟨hb, hs⟩ := h
      subst hb
      subst hs
      have hmb := initAgentsFrom_mem (c.maxBuyerValue : Int) g true 0 c.numBuyers 0 lb hlb
      have hms := initAgentsFrom_mem (c.maxSellerValue : Int) g false 1 c.numSellers
        c.numBuyers ls hls
      refine ⟨?_, ?_, ?_⟩
      · intro a ha
        obtain ⟨h1, h2, h3, h4⟩ := hmb a ha
        exact ⟨h1, by omega, h3, by simp [h4, h2]⟩
      · intro a ha
        obtain ⟨h1, h2, h3, h4⟩ := hms a ha
        exact ⟨h1, by omega, h3, by simp [h4, h2]⟩
      · have z1 : (lb.countP (fun a => a.quantityHeld == 1)) = 0 := by
          rw [List.countP_eq_zero]
          intro a ha
          have := (hmb a ha).2.1
          simp [this]
        have z2 : (ls.countP (fun a => a.quantityHeld == 0)) = 0 := by
          rw [List.countP_eq_zero]
          intro a ha
          have := (hms a ha).2.1
          simp [this]
        show lb.countP (fun a => a.quantityHeld == 1) = ls.countP (fun a => a.quantityHeld == 0)
        omega

theorem reachable_marketInv (c : Config) (st : MarketState) (h : Reachable c st) :
    MarketInv st := by
  induction h with
  | init g b s hinit => exact marketInv_init c g b s hinit
  | step st threadNum g pos st2 pos2 hr hstep ih =>
    exact marketInv_step c st st2 threadNum g pos pos2 hstep ih

/-- Claim C5: in every reachable state, in particular after all workers
finish, the aggregated count of buyers with holding 1 equals the count of
sellers with holding 0: every executed trade flips exactly one buyer to 1 and
one seller to 0. -/
theorem numBought_eq_numSold (c : Config) (st : MarketState) (h : Reachable c st) :
    (computeStatistics st.buyers st.sellers).numberBought
      = (computeStatistics st.buyers st.sellers).numberSold := by
  have hinv := reachable_marketInv c st h
  show (st.buyers.filter (fun a => a.quantityHeld == 1)).length
      = (st.sellers.filter (fun a => a.quantityHeld == 0)).length
  rw [← List.countP_eq_length_filter, ← List.countP_eq_length_filter]
  exact hinv.2.2

def cfgTiny : Config := ⟨1, 1, 1, 1, 1, 0⟩
def buyersTiny : List Agent := [⟨true, 0, 1, 0⟩]
def sellersTiny : List Agent := [⟨false, 1, 1, 0⟩]

theorem numBought_eq_numSold_witness :
    (computeStatistics buyersTiny sellersTiny).numberBought
      = (computeStatistics buyersTiny sellersTiny).numberSold :=
  numBought_eq_numSold cfgTiny ⟨buyersTiny, sellersTiny⟩
    (Reachable.init (fun _ => 0) buyersTiny sellersTiny (by decide))

/-- Claim C4: in every reachable state each agent holds at most one unit and
has a recorded transaction price exactly when its holding has transitioned
(buyer to 1, seller to 0); and every further trade attempt either leaves an
agent unchanged or performs its single allowed transition (buyer 0 to 1,
seller 1 to 0, value and role preserved), with agents whose holding has
already transitioned left untouched. -/
theorem holding_transitions_at_most_once (c : Config) (st : MarketState)
    (h : Reachable c st) :
    (∀ a ∈ st.buyers, a.quantityHeld ≤ 1 ∧ (a.price ≠ 0 ↔ a.quantityHeld = 1)) ∧
    (∀ a ∈ st.sellers, a.quantityHeld ≤ 1 ∧ (a.price ≠ 0 ↔ a.quantityHeld = 0)) ∧
    ∀ (threadNum : Nat) (g : Nat → Nat) (pos : Nat) (st2 : MarketState) (pos2 : Nat),
      doTradeAttempt c threadNum g pos st = some (st2, pos2) →
      (∀ i b b2, st.buyers.get? i = some b → st2.buyers.get? i = some b2 →
        (b.quantityHeld = 1 → b2 = b) ∧
        (b2 = b ∨ (b.quantityHeld = 0 ∧ b2.quantityHeld = 1 ∧ b2.value = b.value ∧
          b2.buyerOrSeller = b.buyerOrSeller))) ∧
      (∀ i sl sl2, st.sellers.get? i = some sl → st2.sellers.get? i = some sl2 →
        (sl.quantityHeld = 0 → sl2 = sl) ∧
        (sl2 = sl ∨ (sl.quantityHeld = 1 ∧ sl2.quantityHeld = 0 ∧ sl2.value = sl.value ∧
          sl2.buyerOrSeller = sl.buyerOrSeller))) := by
  have hinv := reachable_marketInv c st h
  refine ⟨fun a ha => ⟨(hinv.1 a ha).2.1, (hinv.1 a ha).2.2.2⟩,
    fun a ha => ⟨(hinv.2.1 a ha).2.1, (hinv.2.1 a ha).2.2.2⟩, ?_⟩
  intro threadNum g pos st2 pos2 hstep
  obtain ⟨bi, si, buyer, seller, b2, s2, used, hbi, hsi, hbuyer, hseller, hmt, hst2, hpos2⟩ :=
    doTradeAttempt_cases c threadNum g pos st st2 pos2 hstep
  subst hst2
  constructor
  · intro i b b2x hb hb2x
    show (b.quantityHeld = 1 → b2x = b) ∧
      (b2x = b ∨ (b.quantityHeld = 0 ∧ b2x.quantityHeld = 1 ∧ b2x.value = b.value ∧
        b2x.buyerOrSeller = b.buyerOrSeller))
    have hb2x2 : (st.buyers.set bi b2).get? i = some b2x := hb2x
    by_cases hib : i = bi
    · subst hib
      have hbb : b = buyer := Option.some_inj.mp (hb.symm.trans hbuyer)
      obtain ⟨hlt, -⟩ := List.get?_eq_some.mp hb
      have hset : (st.buyers.set i b2).get? i = some b2 := List.get?_set_eq_of_lt b2 hlt
      have hb2b2 : b2x = b2 := (Option.some_inj.mp (hset.symm.trans hb2x2)).symm
      subst hb2b2
      subst hbb
      rcases makeTrade_cases _ _ _ _ _ _ _ _ _ hmt with
        ⟨he1, he2, -⟩ | ⟨hheldB, hheldS, tp, htp, he1, he2, -⟩
      · exact ⟨fun _ => he1, Or.inl he1⟩
      · refine ⟨fun h1 => absurd (hheldB ▸ h1) (by omega), Or.inr ⟨hheldB, ?_, ?_, ?_⟩⟩
        · rw [he1]
        · rw [he1]
        · rw [he1]
    · have hne : bi ≠ i := fun hx => hib hx.symm
      have hsame : (st.buyers.set bi b2).get? i = st.buyers.get? i :=
        List.get?_set_ne b2 st.buyers hne
      have : b2x = b := Option.some_inj.mp ((hsame.symm.trans hb2x2).symm.trans hb)
      exact ⟨fun _ => this, Or.inl this⟩
  · intro i sl sl2x hsl hsl2x
    show (sl.quantityHeld = 0 → sl2x = sl) ∧
      (sl2x = sl ∨ (sl.quantityHeld = 1 ∧ sl2x.quantityHeld = 0 ∧ sl2x.value = sl.value ∧
        sl2x.buyerOrSeller = sl.buyerOrSeller))
    have hsl2x2 : (st.sellers.set si s2).get? i = some sl2x := hsl2x
    by_cases his : i = si
    · subst his
      have hss : sl = seller := Option.some_inj.mp (hsl.symm.trans hseller)
      obtain ⟨hlt, -⟩ := List.get?_eq_some.mp hsl
      have hset : (st.sellers.set i s2).get? i = some s2 := List.get?_set_eq_of_lt s2 hlt
      have hs2s2 : sl2x = s2 := (Option.some_inj.mp (hset.symm.trans hsl2x2)).symm
      subst hs2s2
      subst hss
      rcases makeTrade_cases _ _ _ _ _ _ _ _ _ hmt with
        ⟨he1, he2, -⟩ | ⟨hheldB, hheldS, tp, htp, he1, he2, -⟩
      · exact ⟨fun _ => he2, Or.inl he2⟩
      · refine ⟨fun h1 => absurd (hheldS ▸ h1) (by omega), Or.inr ⟨hheldS, ?_, ?_, ?_⟩⟩
        · rw [he2]
        · rw [he2]
        · rw [he2]
    · have hne : si ≠ i := fun hx => his hx.symm
      have hsame : (st.sellers.set si s2).get? i = st.sellers.get? i :=
        List.get?_set_ne s2 st.sellers hne
      have : sl2x = sl := Option.some_inj.mp ((hsame.symm.trans hsl2x2).symm.trans hsl)
      exact ⟨fun _ => this, Or.inl this⟩

theorem holding_transitions_witness :
    (⟨true, 0, 1, 0⟩ : Agent).quantityHeld ≤ 1 ∧
    ((⟨true, 0, 1, 0⟩ : Agent).price ≠ 0 ↔ (⟨true, 0, 1, 0⟩ : Agent).quantityHeld = 1) := by
  have h := holding_transitions_at_most_once cfgTiny ⟨buyersTiny, sellersTiny⟩
    (Reachable.init (fun _ => 0) buyersTiny sellersTiny (by decide))
  exact h.1 ⟨true, 0, 1, 0⟩ (by simp [buyersTiny])

/-- Claim C10 (amended): the hypothesis P <= min(numBuyers, numSellers) is not
enough (at P = N the index width is N/P - 1 = 0 and `rand.Intn` faults); under
the stronger bounds numBuyers/P >= 2 and numSellers/P >= 2, together with
positive buyer values and seller values at most maxSellerValue, every draw of
a trade attempt has strictly positive width and the attempt never faults. -/
theorem doTradeAttempt_no_fault (c : Config) (threadNum : Nat) (g : Nat → Nat)
    (pos : Nat) (st : MarketState)
    (ht : threadNum < c.numThreads)
    (hb : 2 ≤ buyersPerThread c) (hs : 2 ≤ sellersPerThread c)
    (hlb : st.buyers.length = c.numBuyers) (hls : st.sellers.length = c.numSellers)
    (hbv : ∀ a ∈ st.buyers, 1 ≤ a.value)
    (hsv : ∀ a ∈ st.sellers, a.value ≤ c.maxSellerValue) :
    (doTradeAttempt c threadNum g pos st).isSome = true := by
  have hmb : g pos % (buyersPerThread c - 1) < buyersPerThread c - 1 :=
    Nat.mod_lt _ (by omega)
  have hms : g (pos + 1) % (sellersPerThread c - 1) < sellersPerThread c - 1 :=
    Nat.mod_lt _ (by omega)
  have hbiLt : threadNum * buyersPerThread c + g pos % (buyersPerThread c - 1)
      < st.buyers.length := by
    rw [hlb]
    have h2 : (threadNum + 1) * buyersPerThread c ≤ c.numThreads * buyersPerThread c :=
      Nat.mul_le_mul_right _ (by omega)
    have h5 : c.numThreads * buyersPerThread c
        = c.numBuyers / c.numThreads * c.numThreads := by
      unfold buyersPerThread
      ring
    have h4 := Nat.div_mul_le_self c.numBuyers c.numThreads
    have he : (threadNum + 1) * buyersPerThread c
        = threadNum * buyersPerThread c + buyersPerThread c := by ring
    omega
  have hsiLt : threadNum * sellersPerThread c + g (pos + 1) % (sellersPerThread c - 1)
      < st.sellers.length := by
    rw [hls]
    have h2 : (threadNum + 1) * sellersPerThread c ≤ c.numThreads * sellersPerThread c :=
      Nat.mul_le_mul_right _ (by omega)
    have h5 : c.numThreads * sellersPerThread c
        = c.numSellers / c.numThreads * c.numThreads := by
      unfold sellersPerThread
      ring
    have h4 := Nat.div_mul_le_self c.numSellers c.numThreads
    have he : (threadNum + 1) * sellersPerThread c
        = threadNum * sellersPerThread c + sellersPerThread c := by ring
    omega
  have hbget := List.get?_eq_get hbiLt
  have hsget := List.get?_eq_get hsiLt
  have hbval : 0 < (st.buyers.get ⟨_, hbiLt⟩).value :=
    hbv _ (st.buyers.get_mem _ _)
  have hsval : (st.sellers.get ⟨_, hsiLt⟩).value ≤ c.maxSellerValue :=
    hsv _ (st.sellers.get_mem _ _)
  have hmtSome := makeTrade_isSome c.maxSellerValue (st.buyers.get ⟨_, hbiLt⟩)
    (st.sellers.get ⟨_, hsiLt⟩) (g (pos + 2)) (g (pos + 3)) (g (pos + 4)) hbval hsval
  obtain ⟨⟨b2, s2, u⟩, hout⟩ := Option.isSome_iff_exists.mp hmtSome
  simp only [doTradeAttempt, buyerIndexDraw_eq c threadNum (g pos) hb,
    sellerIndexDraw_eq c threadNum (g (pos + 1)) hs, hbget, hsget, hout]
  rfl

def stNoFault : MarketState :=
  ⟨[⟨true, 0, 3, 0⟩, ⟨true, 0, 3, 0⟩, ⟨true, 0, 3, 0⟩, ⟨true, 0, 3, 0⟩],
   [⟨false, 1, 3, 0⟩, ⟨false, 1, 3, 0⟩, ⟨false, 1, 3, 0⟩, ⟨false, 1, 3, 0⟩]⟩

theorem doTradeAttempt_no_fault_witness :
    (doTradeAttempt cfgBlocks 1 (fun n => n) 0 stNoFault).isSome = true :=
  doTradeAttempt_no_fault cfgBlocks 1 (fun n => n) 0 stNoFault (by decide) (by decide)
    (by decide) (by decide) (by decide) (by decide) (by decide)
